import Mathlib

/-!
Shallow embedding of `owlmixin/owlcollections.py`: the functional operations of
`TList` (an ordered sequence, a `list` subclass) and `TDict` (an insertion-ordered
mapping, a `dict` subclass).  A `TList`'s contents are modelled as `List α`; a
`TDict`'s contents as an association list `List (κ × α)` in insertion order,
which is Python 3.7+ dict iteration order.  Python's `+` on list-like values
dispatches on the runtime class of the left operand, so list values that flow
into `+` are modelled by a tagged type `PyVal` remembering whether the value is
a `TList` or a plain `list`.
-/

/-- A Python list-like value: either a `TList` instance or a plain `list`,
with its elements. -/
inductive PyVal (α : Type) : Type
  | tl : List α → PyVal α
  | pl : List α → PyVal α
deriving DecidableEq

/-- The elements of a list-like value (Python `list(x)` forgets the subclass). -/
def PyVal.elems {α : Type} : PyVal α → List α
  | .tl l => l
  | .pl l => l

/-- Termination measure for `pyAdd`: a `TList` operand triggers one more dispatch. -/
def PyVal.rank {α : Type} : PyVal α → Nat
  | .tl _ => 1
  | .pl _ => 0

/-- Python `x + y` on list-like values.
If `x` is a `TList`, `TList.__add__(x, y)` runs: `return TList(values + list(self))`,
i.e. it evaluates `y + (plain copy of x's elements)` and wraps the elements in a
new `TList`.  If `x` is a plain `list`, `list.__add__` concatenates
(`TList` defines no `__radd__`, so plain `list + TList` also lands here). -/
def pyAdd {α : Type} : PyVal α → PyVal α → PyVal α
  | .tl a, v => .tl (pyAdd v (.pl a)).elems
  | .pl a, v => .pl (a ++ v.elems)
termination_by x y => x.rank + y.rank
decreasing_by simp [PyVal.rank]

namespace TList

/-- `TList.map`: `TList(map(func, self))`. -/
def map {α β : Type} (f : α → β) (l : List α) : List β := l.map f

/-- `TList.filter`: `TList([x for x in self if func(x)])`. -/
def filter {α : Type} (p : α → Bool) (l : List α) : List α := l.filter p

/-- `TList.reject`: `TList([x for x in self if not func(x)])`. -/
def reject {α : Type} (p : α → Bool) (l : List α) : List α :=
  l.filter (fun x => !(p x))

/-- Python slice-index clamping: a negative index counts from the end, and the
result is clamped into `[0, len]`. -/
def pyClamp (len : Nat) (i : Int) : Nat :=
  (max 0 (min (len : Int) (if i < 0 then i + len else i))).toNat

/-- `TList.head`: `TList(self[:size_])`, Python slice semantics for any integer
`size_` (slicing never raises). -/
def head {α : Type} (l : List α) (n : Int) : List α :=
  l.take (pyClamp l.length n)

/-- `TList.tail`: `TList(self[self.size()-size_:])`, Python slice semantics for
any integer `size_` (slicing never raises). -/
def tail {α : Type} (l : List α) (n : Int) : List α :=
  l.drop (pyClamp l.length ((l.length : Int) - n))

/-- `TList.head_while`: appends elements to a fresh list while the predicate
holds, returning at the first failure. -/
def head_while {α : Type} (p : α → Bool) : List α → List α
  | [] => []
  | x :: xs => if p x then x :: head_while p xs else []

/-- `TList.uniq`: `rs = TList(); for e in self: if e not in rs: rs.append(e)`. -/
def uniq {α : Type} [DecidableEq α] (l : List α) : List α :=
  l.foldl (fun rs e => if e ∈ rs then rs else rs ++ [e]) []

/-- `TList.partial`: `return self.filter(func), self.reject(func)` (named
`partition` in the spec). -/
def partition {α : Type} (p : α → Bool) (l : List α) : List α × List α :=
  (filter p l, reject p l)

/-- One iteration of the `TList.group_by` loop body on the `ret` dict:
`ret.setdefault(k, TList())` appends the key at the end when absent
(dict insertion order), then `ret[k].append(v)`. -/
def addToGroup {κ α : Type} [DecidableEq κ] (k : κ) (v : α) :
    List (κ × List α) → List (κ × List α)
  | [] => [(k, [v])]
  | (k2, vs) :: rest =>
      if k2 = k then (k2, vs ++ [v]) :: rest else (k2, vs) :: addToGroup k v rest

/-- `TList.group_by`: `ret = TDict(); for v in self: k = to_key(v);
ret.setdefault(k, TList()); ret[k].append(v); return ret`. -/
def group_by {κ α : Type} [DecidableEq κ] (f : α → κ) (l : List α) :
    List (κ × List α) :=
  l.foldl (fun ret v => addToGroup (f v) v ret) []

/-- `TList.order_by`: `TList(sorted(self, key=func, reverse=reverse))`.
Python's `sorted` contract: a stable sort by the derived key; with
`reverse=True` a stable descending sort (equal-key elements keep their
original relative order, it is not the reversal of the ascending result).
Realised by insertion sort with the corresponding total preorder on keys. -/
def order_by {α β : Type} [LinearOrder β] (k : α → β) (rev : Bool) (l : List α) :
    List α :=
  if rev then List.insertionSort (fun a b => k b ≤ k a) l
  else List.insertionSort (fun a b => k a ≤ k b) l

/-- `TList.concat`: `return values + self if first else self + values`,
where `self` is a `TList` and `values` may be a `TList` or a plain list. -/
def concat {α : Type} (self : List α) (values : PyVal α) (first : Bool) :
    PyVal α :=
  if first then pyAdd values (.tl self) else pyAdd (.tl self) values

/-- `TList.find`: `for x in self: if func(x): return x` — falling off the end
returns Python `None`, modelled as `none`; a found element `x` is returned. -/
def find {α : Type} (p : α → Bool) : List α → Option α
  | [] => none
  | x :: xs => if p x then some x else find p xs

/-- `TList.find` at a nullable element type: the elements themselves are
Python values that may be `None` (`Option γ`).  The body `return x` returns
the element itself, and falling off the end returns `None`, so both paths
produce an `Option γ` and the two collapse. -/
def find_nullable {γ : Type} (p : Option γ → Bool) : List (Option γ) → Option γ
  | [] => none
  | x :: xs => if p x then x else find_nullable p xs

end TList

namespace TDict

/-- `TDict.find`: `for k, v in self.items(): if func(k, v): return v`,
iterating in the dict's insertion order. -/
def find {κ α : Type} (p : κ → α → Bool) : List (κ × α) → Option α
  | [] => none
  | (k, v) :: rest => if p k v then some v else find p rest

end TDict

/-- Association-list lookup in a `TDict` model: the value stored at key `k`. -/
def lookupKey {κ β : Type} [DecidableEq κ] (k : κ) : List (κ × β) → Option β
  | [] => none
  | (k2, v) :: rest => if k2 = k then some v else lookupKey k rest

/-- State of a method body that builds a result by a loop: the receiver's
contents and the local accumulator under construction. -/
structure LoopState (σ ρ : Type) where
  receiver : σ
  acc : ρ

/-- Runs a loop `for v in <iterated>:` whose body's statements write only the
local accumulator (`g` is the translation of the body). -/
def loopRun {σ ρ α : Type} (g : α → ρ → ρ) (iterated : List α)
    (st : LoopState σ ρ) : LoopState σ ρ :=
  iterated.foldl (fun s v => { receiver := s.receiver, acc := g v s.acc }) st

/-- The `TList.group_by` body, statement by statement over explicit state:
the receiver's contents and the `ret` accumulator; the loop iterates over the
receiver's (initial) contents. -/
def group_by_run {κ α : Type} [DecidableEq κ] (f : α → κ) (l : List α) :
    LoopState (List α) (List (κ × List α)) :=
  loopRun (fun v ret => TList.addToGroup (f v) v ret) l { receiver := l, acc := [] }

/-- The `TList.uniq` body over explicit state: receiver contents plus the local
`rs` accumulator. -/
def uniq_run {α : Type} [DecidableEq α] (l : List α) :
    LoopState (List α) (List α) :=
  loopRun (fun e rs => if e ∈ rs then rs else rs ++ [e]) l { receiver := l, acc := [] }

/-! ### Helper lemmas -/

theorem find_eq_head_filter {α : Type} (p : α → Bool) :
    ∀ l : List α, TList.find p l = (l.filter p).head?
  | [] => rfl
  | x :: xs => by
    cases h : p x <;>
      simp [TList.find, List.filter_cons, h, find_eq_head_filter p xs]

theorem tdict_find_eq_head_filter {κ α : Type} (q : κ → α → Bool) :
    ∀ m : List (κ × α),
      TDict.find q m = ((m.filter fun e => q e.1 e.2).map Prod.snd).head?
  | [] => rfl
  | (k, v) :: rest => by
    cases h : q k v <;>
      simp [TDict.find, List.filter_cons, h, tdict_find_eq_head_filter q rest]

theorem filter_orderedInsert {α : Type} (p : α → Bool) (r : α → α → Prop)
    [DecidableRel r] (x : α) (h : p x = true → ∀ y, ¬ r x y → p y = false) :
    ∀ l : List α,
      (List.orderedInsert r x l).filter p =
        if p x then x :: l.filter p else l.filter p
  | [] => by cases hp : p x <;> simp [List.orderedInsert, hp]
  | b :: l => by
    by_cases hr : r x b
    · cases hp : p x <;> simp [List.orderedInsert, hr, List.filter_cons, hp]
    · cases hp : p x
      · simp [List.orderedInsert, hr, List.filter_cons, hp,
          filter_orderedInsert p r x h l]
      · have hb : p b = false := h hp b hr
        simp [List.orderedInsert, hr, List.filter_cons, hp, hb,
          filter_orderedInsert p r x h l]

theorem filter_insertionSort {α : Type} (p : α → Bool) (r : α → α → Prop)
    [DecidableRel r] (h : ∀ x, p x = true → ∀ y, ¬ r x y → p y = false) :
    ∀ l : List α, (List.insertionSort r l).filter p = l.filter p
  | [] => rfl
  | x :: l => by
    rw [List.insertionSort, filter_orderedInsert p r x (h x),
      filter_insertionSort p r h l]
    cases hp : p x <;> simp [List.filter_cons, hp]

theorem group_by_append {κ α : Type} [DecidableEq κ] (f : α → κ) (l : List α)
    (v : α) :
    TList.group_by f (l ++ [v]) = TList.addToGroup (f v) v (TList.group_by f l) := by
  simp [TList.group_by, List.foldl_append]

theorem uniq_append {α : Type} [DecidableEq α] (l : List α) (e : α) :
    TList.uniq (l ++ [e]) =
      if e ∈ TList.uniq l then TList.uniq l else TList.uniq l ++ [e] := by
  simp [TList.uniq, List.foldl_append]

theorem lookup_addToGroup_self {κ α : Type} [DecidableEq κ] (k : κ) (v : α) :
    ∀ m : List (κ × List α),
      lookupKey k (TList.addToGroup k v m) =
        some (((lookupKey k m).getD []) ++ [v])
  | [] => by simp [TList.addToGroup, lookupKey]
  | (k2, vs) :: m => by
    by_cases h : k2 = k
    · subst h
      simp [TList.addToGroup, lookupKey]
    · simp [TList.addToGroup, lookupKey, h, lookup_addToGroup_self k v m]

theorem lookup_addToGroup_ne {κ α : Type} [DecidableEq κ] {k k2 : κ}
    (h : k2 ≠ k) (v : α) :
    ∀ m : List (κ × List α),
      lookupKey k (TList.addToGroup k2 v m) = lookupKey k m
  | [] => by simp [TList.addToGroup, lookupKey, h]
  | (k3, vs) :: m => by
    by_cases h3 : k3 = k2
    · subst h3
      simp [TList.addToGroup, lookupKey, h]
    · simp [TList.addToGroup, lookupKey, h3, lookup_addToGroup_ne h v m]

theorem map_fst_addToGroup {κ α : Type} [DecidableEq κ] (k : κ) (v : α) :
    ∀ m : List (κ × List α),
      (TList.addToGroup k v m).map Prod.fst =
        if k ∈ m.map Prod.fst then m.map Prod.fst else m.map Prod.fst ++ [k]
  | [] => by simp [TList.addToGroup]
  | (k2, vs) :: m => by
    by_cases h : k2 = k
    · subst h
      simp [TList.addToGroup]
    · have hne : ¬ k = k2 := fun hk => h hk.symm
      by_cases hm : k ∈ m.map Prod.fst <;>
        simp [TList.addToGroup, h, hne, hm, map_fst_addToGroup k v m]

theorem lookup_group_by {κ α : Type} [DecidableEq κ] (f : α → κ) (k : κ)
    (l : List α) :
    lookupKey k (TList.group_by f l) =
      (if (l.filter (fun x => decide (f x = k))).isEmpty then none
       else some (l.filter (fun x => decide (f x = k)))) := by
  induction l using List.reverseRecOn with
  | nil => simp [TList.group_by, lookupKey]
  | append_singleton l v ih =>
    rw [group_by_append]
    by_cases hv : f v = k
    · subst hv
      rw [lookup_addToGroup_self, ih]
      have hfa : List.filter (fun x => decide (f x = f v)) (l ++ [v]) =
          List.filter (fun x => decide (f x = f v)) l ++ [v] := by
        simp [List.filter_append]
      rw [hfa]
      by_cases hf : (List.filter (fun x => decide (f x = f v)) l).isEmpty
      · simp_all [List.isEmpty_iff]
      · simp_all [List.isEmpty_iff]
        rw [if_neg]
        · rfl
        · intro hall
          obtain ⟨x, hx, hfx⟩ := hf
          exact hall x hx hfx
    · rw [lookup_addToGroup_ne hv, ih]
      have hfa : List.filter (fun x => decide (f x = k)) (l ++ [v]) =
          List.filter (fun x => decide (f x = k)) l := by
        simp [List.filter_append, hv]
      rw [hfa]

theorem map_fst_group_by {κ α : Type} [DecidableEq κ] (f : α → κ) (l : List α) :
    (TList.group_by f l).map Prod.fst = TList.uniq (l.map f) := by
  induction l using List.reverseRecOn with
  | nil => simp [TList.group_by, TList.uniq]
  | append_singleton l v ih =>
    rw [group_by_append, map_fst_addToGroup, ih]
    have hm : List.map f (l ++ [v]) = List.map f l ++ [f v] := by simp
    rw [hm, uniq_append]

theorem loopRun_receiver {σ ρ α : Type} (g : α → ρ → ρ) :
    ∀ (l : List α) (st : LoopState σ ρ), (loopRun g l st).receiver = st.receiver
  | [], _ => rfl
  | v :: l, st => by
    have h := loopRun_receiver g l
      { receiver := st.receiver, acc := g v st.acc }
    simpa [loopRun, List.foldl_cons] using h

theorem loopRun_acc {σ ρ α : Type} (g : α → ρ → ρ) :
    ∀ (l : List α) (st : LoopState σ ρ),
      (loopRun g l st).acc = l.foldl (fun r v => g v r) st.acc
  | [], _ => rfl
  | v :: l, st => by
    have h := loopRun_acc g l { receiver := st.receiver, acc := g v st.acc }
    simpa [loopRun, List.foldl_cons] using h

/-! ### Claim theorems -/

/-- C1 (counterexample): the claim says `[1,2].concat([3,4])` yields `[1,2,3,4]`
regardless of whether the argument is a `TList` or a plain list; with a plain
list argument the code yields `[3,4,1,2]` instead, because `TList.__add__`
evaluates `values + list(self)`, which for a plain `values` is
`values`-then-`self`. -/
theorem concat_plain_arg_counterexample :
    TList.concat ([1,2] : List Int) (.pl [3,4]) false = .tl [3,4,1,2] ∧
    PyVal.tl ([3,4,1,2] : List Int) ≠ .tl [1,2,3,4] := by
  constructor
  · simp [TList.concat, pyAdd, PyVal.elems]
  · decide

/-- C1 (amended): `concat` returns self-then-other for a `TList` argument and
other-then-self with `first=True`; for a plain-list argument it returns
other-then-self when `first=False`, and other-then-self as a plain list when
`first=True`.  Neither input is mutated (all results are freshly built values
of the inputs). -/
theorem concat_pyval_spec {α : Type} (s other : List α) :
    TList.concat s (.tl other) false = .tl (s ++ other) ∧
    TList.concat s (.tl other) true = .tl (other ++ s) ∧
    TList.concat s (.pl other) false = .tl (other ++ s) ∧
    TList.concat s (.pl other) true = .pl (other ++ s) := by
  refine ⟨?_, ?_, ?_, ?_⟩ <;> simp [TList.concat, pyAdd, PyVal.elems]

/-- C2 (counterexample): the claim says `head`/`tail` with a negative size are
rejected with an explicit error signal and return no sequence result; the code
has no such check — Python slicing accepts negative indices, and
`head([1,2,3], -1)` returns the sequence `[1,2]` while `tail([1,2,3], -1)`
returns the empty sequence. -/
theorem head_negative_returns_list :
    TList.head ([1,2,3] : List Int) (-1) = [1,2] ∧
    TList.tail ([1,2,3] : List Int) (-1) = [] := by decide

/-- C2 (amended): for negative `n`, `head` and `tail` are not rejected:
`head(n)` returns the first `len + n` elements (clamped at 0), i.e. all but the
last `|n|`, and `tail(n)` returns the empty sequence. -/
theorem head_tail_negative_spec {α : Type} (l : List α) (n : Int) (h : n < 0) :
    TList.head l n = l.take ((l.length + n).toNat) ∧ TList.tail l n = [] := by
  constructor
  · unfold TList.head TList.pyClamp
    rw [if_pos h]
    congr 1
    omega
  · unfold TList.tail TList.pyClamp
    have hc : (max 0 (min ((l.length : Nat) : Int)
        (if (l.length : Int) - n < 0 then (l.length : Int) - n + l.length
         else (l.length : Int) - n))).toNat = l.length := by
      rw [if_neg (by omega)]
      omega
    rw [hc, List.drop_length]

/-- Witness for `head_tail_negative_spec` at `l = [1,2,3]`, `n = -1`. -/
theorem head_tail_negative_spec_witness :
    ((-1 : Int) < 0) ∧
    (TList.head ([1,2,3] : List Int) (-1) =
        ([1,2,3] : List Int).take ((([1,2,3] : List Int).length + (-1 : Int)).toNat) ∧
      TList.tail ([1,2,3] : List Int) (-1) = []) :=
  ⟨by decide, head_tail_negative_spec [1,2,3] (-1) (by decide)⟩

/-- C3 (code bug): `tail` is `self[self.size()-size_:]`; for
`len < n < 2*len` the start index `len - n` is negative and Python wraps it to
`2*len - n`, so `tail` returns only the last `n - len` elements instead of the
whole sequence: `tail([1,2,3,4,5], 7) = [4,5]`, `tail([1,2,3], 4) = [3]`
(while `tail([1,2,3], 6)` and `head([1,2,3], 4)` do return the whole list). -/
theorem tail_overflow_bug_eval :
    TList.tail ([1,2,3,4,5] : List Int) 7 = [4,5] ∧
    TList.tail ([1,2,3] : List Int) 4 = [3] ∧
    TList.tail ([1,2,3] : List Int) 6 = [1,2,3] ∧
    TList.head ([1,2,3] : List Int) 4 = [1,2,3] := by decide

/-- C5: `partial` returns exactly the pair `(filter, reject)`, and there are
`s`, `p` for which `filter(p) ++ reject(p)` is not order-equal to `s`
(witnessed by `s = [1,2]`, `p = (= 2)`). -/
theorem partition_filter_reject_spec {α : Type} (p : α → Bool) (s : List α) :
    TList.partition p s = (TList.filter p s, TList.reject p s) ∧
    TList.concat (TList.filter (fun x => decide (x = 2)) ([1,2] : List Int))
        (.tl (TList.reject (fun x => decide (x = 2)) ([1,2] : List Int))) false ≠
      .tl ([1,2] : List Int) := by
  constructor
  · rfl
  · simp [TList.filter, TList.reject, TList.concat, pyAdd, PyVal.elems]

/-- C6: `group_by` maps each key that occurs in the sequence to exactly the
elements deriving that key, in their original relative order (and no entry for
keys that do not occur); the keys appear in first-observation order (the
`uniq` of the derived-key sequence); `[1,2,3,4,5]` grouped by parity yields
the mapping with entries `1 ↦ [1,3,5]` and `0 ↦ [2,4]`. -/
theorem group_by_spec {κ α : Type} [DecidableEq κ] (f : α → κ) (l : List α)
    (k : κ) :
    lookupKey k (TList.group_by f l) =
      (if (l.filter (fun x => decide (f x = k))).isEmpty then none
       else some (l.filter (fun x => decide (f x = k)))) ∧
    (TList.group_by f l).map Prod.fst = TList.uniq (l.map f) ∧
    TList.group_by (fun x => x % 2) ([1,2,3,4,5] : List Nat) =
      [(1, [1,3,5]), (0, [2,4])] :=
  ⟨lookup_group_by f k l, map_fst_group_by f l, by decide⟩

/-- C7: `find` on a sequence returns the first element satisfying the
predicate (the head of the filtered sequence) and `none` when there is none;
`find` on a mapping returns the first matching value in iteration order and
`none` when there is none — absence is a value, not an exception. -/
theorem find_first_match_spec {α κ : Type} (p : α → Bool) (l : List α)
    (q : κ → α → Bool) (m : List (κ × α)) :
    TList.find p l = (l.filter p).head? ∧
    TDict.find q m = ((m.filter fun e => q e.1 e.2).map Prod.snd).head? :=
  ⟨find_eq_head_filter p l, tdict_find_eq_head_filter q m⟩

/-- C8: the method bodies that build their result by mutating a local
accumulator, run over explicit state holding the receiver's contents and the
accumulator, leave the receiver exactly as it was and produce the same result
as the pure transformations: the receiver is never mutated. -/
theorem no_receiver_mutation_spec {κ α : Type} [DecidableEq κ] [DecidableEq α]
    (f : α → κ) (l : List α) :
    ((group_by_run f l).receiver = l ∧
      (group_by_run f l).acc = TList.group_by f l) ∧
    ((uniq_run l).receiver = l ∧ (uniq_run l).acc = TList.uniq l) :=
  ⟨⟨loopRun_receiver _ l _, loopRun_acc _ l _⟩,
   ⟨loopRun_receiver _ l _, loopRun_acc _ l _⟩⟩

/-- C9: `TList.__add__` swaps its operands: for a plain-list right operand,
`a + b` is `b`'s elements followed by `a`'s; for a `TList` right operand the
swapped `__add__` applies twice and `a + b` is `a`'s elements followed by
`b`'s, the conventional order. -/
theorem tlist_add_swap_spec {α : Type} (a b : List α) :
    pyAdd (.tl a) (.pl b) = .tl (b ++ a) ∧
    pyAdd (.tl a) (.tl b) = .tl (a ++ b) := by
  constructor <;> simp [pyAdd, PyVal.elems]

/-- C10: the absent marker returned by `find` is the value `None`, which is
itself a possible element: on the one-element sequence `[None]` and any
predicate satisfied by `None`, `find` returns exactly the same result as on
the empty sequence — `none` either way. -/
theorem find_none_indistinguishable_spec {γ : Type} (p : Option γ → Bool)
    (h : p none = true) :
    TList.find_nullable p [(none : Option γ)] =
        TList.find_nullable p ([] : List (Option γ)) ∧
    TList.find_nullable p [(none : Option γ)] = none := by
  simp [TList.find_nullable, h]

/-- Witness for `find_none_indistinguishable_spec` with the constant-true
predicate at `γ = Nat`. -/
theorem find_none_indistinguishable_witness :
    ((fun _ => true) : Option Nat → Bool) none = true ∧
    (TList.find_nullable (fun _ => true) [(none : Option Nat)] =
        TList.find_nullable (fun _ => true) ([] : List (Option Nat)) ∧
      TList.find_nullable (fun _ => true) [(none : Option Nat)] = none) :=
  ⟨rfl, find_none_indistinguishable_spec (fun _ => true) rfl⟩

/-- C4: `order_by` is a stable sort in both directions: ascending and
descending results are sorted by the derived key, elements with equal derived
keys keep their original relative order in both directions (the equal-key
sublists of the output are those of the input), and the descending result is
not the reversal of the ascending one — on `[(1,10),(1,11),(2,12)]` keyed by
the first component they differ. -/
theorem order_by_stable_spec {α β : Type} [LinearOrder β] (k : α → β)
    (l : List α) (v : β) :
    (TList.order_by k false l).filter (fun a => decide (k a = v)) =
        l.filter (fun a => decide (k a = v)) ∧
    (TList.order_by k true l).filter (fun a => decide (k a = v)) =
        l.filter (fun a => decide (k a = v)) ∧
    List.Sorted (fun a b => k a ≤ k b) (TList.order_by k false l) ∧
    List.Sorted (fun a b => k b ≤ k a) (TList.order_by k true l) ∧
    TList.order_by Prod.fst true ([(1,10),(1,11),(2,12)] : List (Nat × Nat)) ≠
      (TList.order_by Prod.fst false
        ([(1,10),(1,11),(2,12)] : List (Nat × Nat))).reverse := by
  refine ⟨?_, ?_, ?_, ?_, by decide⟩
  · simp only [TList.order_by, Bool.false_eq_true, if_false]
    apply filter_insertionSort
    intro x hx y hxy
    have hlt : k y < k x := not_le.mp hxy
    simp only [decide_eq_true_eq] at hx
    simp only [decide_eq_false_iff_not]
    rw [hx] at hlt
    exact ne_of_lt hlt
  · simp only [TList.order_by, if_true]
    apply filter_insertionSort
    intro x hx y hxy
    have hlt : k x < k y := not_le.mp hxy
    simp only [decide_eq_true_eq] at hx
    simp only [decide_eq_false_iff_not]
    rw [hx] at hlt
    exact ne_of_gt hlt
  · simp only [TList.order_by, Bool.false_eq_true, if_false]
    haveI : IsTotal α (fun a b => k a ≤ k b) := ⟨fun a b => le_total (k a) (k b)⟩
    haveI : IsTrans α (fun a b => k a ≤ k b) :=
      ⟨fun _ _ _ hab hbc => le_trans hab hbc⟩
    exact List.sorted_insertionSort _ l
  · simp only [TList.order_by, if_true]
    haveI : IsTotal α (fun a b => k b ≤ k a) := ⟨fun a b => le_total (k b) (k a)⟩
    haveI : IsTrans α (fun a b => k b ≤ k a) :=
      ⟨fun _ _ _ hab hbc => le_trans hbc hab⟩
    exact List.sorted_insertionSort _ l
